import Mathlib

/-!
# Verification of `raft_stats.go`

A shallow embedding of the statistics accumulator of `src/raft_stats.go`
(the `statsQueue` ring buffer, the `raftPeerStats` latency estimator and the
`raftServerStats` role bookkeeping), followed by theorems about it.

Modelling conventions.

* Go `int` is the 64-bit two's complement integer: every `+`, `-`, `++` on an
  `int` is followed by `wrapInt`; `%` on `int` truncates towards zero
  (`Int.tmod`).  `uint64` counters are naturals reduced modulo `2^64`.
* A pointer `*packageStats` is an `Option packageStats`, `none` being `nil`.
  A `packageStats` is never written after `NewPackageStats`, so sharing of
  pointers cannot be observed and the pointee is stored by value.
* A run-time panic (nil dereference, index out of range) is the result
  `none` of a function returning `Option`.
* `float64` is modelled in exact arithmetic over an ordered field `F`
  (rationals or reals) extended by the three IEEE special values
  `+Inf`, `-Inf` and `NaN`; rounding and the sign of zero are not modelled.
  Every zero divisor in this program is the conversion of an integer, hence
  `+0`, which is what `float64.div` assumes.
* `time.Time` is an integer number of nanoseconds; `time.Duration` is an
  `int64` number of nanoseconds and `Time.Sub` saturates, as documented by
  package `time`.  The value of each `time.Now()` call and the value of
  `r.Name()` (the node's own name, read from the global `r`) are arguments of
  the function that makes the call.
* The locks of `statsQueue` and the `fmt.Println` at the end of `Insert`
  have no effect on the state and are left out: the model is sequential.
-/

namespace RaftStats

/-! ## Machine integers -/

/-- Two's complement wrap-around of a Go `int` (64 bits). -/
def wrapInt (x : Int) : Int := (x + 2 ^ 63) % 2 ^ 64 - 2 ^ 63

/-- Wrap-around of a Go `uint64`. -/
def wrapUint64 (x : Nat) : Nat := x % 2 ^ 64

/-! ## `float64` in exact arithmetic with IEEE special values -/

/-- A `float64` value: a finite number, an infinity, or not-a-number. -/
inductive float64 (F : Type) where
  | fin : F → float64 F
  | pinf : float64 F
  | ninf : float64 F
  | nan : float64 F
deriving DecidableEq, Repr

namespace float64

variable {F : Type} [LinearOrderedField F]

/-- Conversion `float64(i)` of an integer. -/
def ofInt (i : Int) : float64 F := fin (i : F)

/-- Conversion `float64(n)` of an unsigned integer. -/
def ofNat (n : Nat) : float64 F := fin (n : F)

/-- IEEE addition. -/
def add : float64 F → float64 F → float64 F
  | fin a, fin b => fin (a + b)
  | nan, _ => nan
  | _, nan => nan
  | pinf, ninf => nan
  | ninf, pinf => nan
  | pinf, _ => pinf
  | _, pinf => pinf
  | ninf, _ => ninf
  | _, ninf => ninf

/-- IEEE negation. -/
def neg : float64 F → float64 F
  | fin a => fin (-a)
  | pinf => ninf
  | ninf => pinf
  | nan => nan

/-- IEEE subtraction. -/
def sub (x y : float64 F) : float64 F := add x (neg y)

/-- The product of an infinity of sign `pos` with the finite number `a`. -/
def infTimes (pos : Bool) (a : F) : float64 F :=
  if a = 0 then nan
  else if (0 < a) = pos then pinf else ninf

/-- IEEE multiplication. -/
def mul : float64 F → float64 F → float64 F
  | fin a, fin b => fin (a * b)
  | nan, _ => nan
  | _, nan => nan
  | pinf, fin b => infTimes true b
  | ninf, fin b => infTimes false b
  | fin a, pinf => infTimes true a
  | fin a, ninf => infTimes false a
  | pinf, pinf => pinf
  | ninf, ninf => pinf
  | pinf, ninf => ninf
  | ninf, pinf => ninf

/-- IEEE division; a zero divisor is `+0`. -/
def div : float64 F → float64 F → float64 F
  | fin a, fin b =>
    if b = 0 then
      (if a = 0 then nan else if 0 < a then pinf else ninf)
    else fin (a / b)
  | nan, _ => nan
  | _, nan => nan
  | fin _, pinf => fin 0
  | fin _, ninf => fin 0
  | pinf, fin b => if 0 ≤ b then pinf else ninf
  | ninf, fin b => if 0 ≤ b then ninf else pinf
  | pinf, pinf => nan
  | pinf, ninf => nan
  | ninf, pinf => nan
  | ninf, ninf => nan

/-- IEEE comparison `x < y`: false as soon as an operand is `NaN`. -/
def lt : float64 F → float64 F → Bool
  | fin a, fin b => decide (a < b)
  | nan, _ => false
  | _, nan => false
  | fin _, pinf => true
  | fin _, ninf => false
  | pinf, _ => false
  | ninf, fin _ => true
  | ninf, pinf => true
  | ninf, ninf => false

/-- IEEE comparison `x > y`. -/
def gt (x y : float64 F) : Bool := lt y x

/-- The function `math.Sqrt`, given the square root `sqrt` of the field on
non-negative numbers. -/
def Sqrt (sqrt : F → F) : float64 F → float64 F
  | fin a => if a < 0 then nan else fin (sqrt a)
  | pinf => pinf
  | ninf => nan
  | nan => nan

end float64

/-! ## `packageStats` -/

/-- The constant `queueCapacity`. -/
def queueCapacity : Int := 200

/-- The struct `packageStats`: a time stamp in nanoseconds and a size. -/
structure packageStats where
  sendingTime : Int
  size : Int
deriving DecidableEq, Repr

/-- The constructor `NewPackageStats`; the result is never `nil`. -/
def NewPackageStats (now : Int) (size : Int) : Option packageStats :=
  some { sendingTime := now, size := size }

/-- The method `packageStats.Time`. -/
def packageStats.Time (ps : packageStats) : Int := ps.sendingTime

/-- The method `time.Time.Sub`: the difference as a `time.Duration`,
saturated to the range of `int64`. -/
def timeSub (t u : Int) : Int :=
  if t - u < -(2 ^ 63) then -(2 ^ 63)
  else if 2 ^ 63 - 1 < t - u then 2 ^ 63 - 1
  else t - u

/-- The constant `time.Second`, in nanoseconds. -/
def timeSecond : Int := 1000000000

/-! ## `statsQueue` -/

/-- The struct `statsQueue` (without its lock). `items i` is the slot of
index `i` of the array; only the indices below `queueCapacity` exist. -/
structure statsQueue where
  items : Nat → Option packageStats
  size : Int
  front : Int
  back : Int
  totalPkgSize : Int

namespace statsQueue

/-- The zero value of `statsQueue`: every slot `nil`, every field `0`. -/
def zero : statsQueue :=
  { items := fun _ => none, size := 0, front := 0, back := 0, totalPkgSize := 0 }

/-- The index expression `q.items[i]`: `none` is the index-out-of-range
panic, `some slot` the pointer read. -/
def index (q : statsQueue) (i : Int) : Option (Option packageStats) :=
  if 0 ≤ i ∧ i < queueCapacity then some (q.items i.toNat) else none

/-- The method `Len`. -/
def Len (q : statsQueue) : Int := q.size

/-- The method `Size`. -/
def Size (q : statsQueue) : Int := q.totalPkgSize

/-- The method `frontAndBack`; `none` is a panic. -/
def frontAndBack (q : statsQueue) :
    Option (Option packageStats × Option packageStats) :=
  if q.size ≠ 0 then do
    let f ← q.index q.front
    let b ← q.index q.back
    pure (f, b)
  else pure (none, none)

/-- The method `Insert`; `none` is a panic. -/
def Insert (q : statsQueue) (p : Option packageStats) : Option statsQueue := do
  -- if q.size == queueCapacity { totalPkgSize -= items[front].size; front = (back + 2) % cap }
  -- else { size++ }
  let q1 ← (if q.size = queueCapacity then do
      let slot ← q.index q.front
      let old ← slot
      pure { q with
        totalPkgSize := wrapInt (q.totalPkgSize - old.size)
        front := (wrapInt (q.back + 2)).tmod queueCapacity }
    else pure { q with size := wrapInt (q.size + 1) })
  -- q.back = (q.back + 1) % queueCapacity
  let back := (wrapInt (q1.back + 1)).tmod queueCapacity
  -- q.items[q.back] = p
  if 0 ≤ back ∧ back < queueCapacity then do
    let items := fun i => if i = back.toNat then p else q1.items i
    -- q.totalPkgSize += q.items[q.back].size
    let new ← p
    pure { q1 with
      back := back
      items := items
      totalPkgSize := wrapInt (q1.totalPkgSize + new.size) }
  else none

/-- The method `Rate` over the rationals; `none` is a panic. -/
def Rate (q : statsQueue) : Option (float64 ℚ × float64 ℚ) := do
  let fb ← q.frontAndBack
  match fb with
  | (some front, some back) =>
    let sampleDuration := timeSub back.Time front.Time
    let pr := float64.mul
      (float64.div (float64.ofInt q.Len) (float64.ofInt sampleDuration))
      (float64.ofInt timeSecond)
    let br := float64.mul
      (float64.div (float64.ofInt q.Size) (float64.ofInt sampleDuration))
      (float64.ofInt timeSecond)
    pure (pr, br)
  | _ => pure (float64.fin 0, float64.fin 0)

/-- A sequence of `Insert` calls with the non-nil samples `ps`, in order,
stopping at the first panic. -/
def insertAll (q : statsQueue) : List packageStats → Option statsQueue
  | [] => some q
  | p :: ps => (q.Insert (some p)).bind (fun q1 => insertAll q1 ps)

end statsQueue

/-! ## `raftPeerStats` -/

/-- The struct `raftPeerStats`; its `float64` fields take their values in
`float64 F`, its `uint64` counters are naturals below `2^64`. -/
structure raftPeerStats (F : Type) where
  Latency : float64 F
  AvgLatency : float64 F
  avgLatencySquare : float64 F
  SdvLatency : float64 F
  MinLatency : float64 F
  MaxLatency : float64 F
  FailCnt : Nat
  SuccCnt : Nat

namespace raftPeerStats

variable {F : Type} [LinearOrderedField F]

/-- The zero value of `raftPeerStats`. -/
def zero : raftPeerStats F :=
  { Latency := float64.fin 0, AvgLatency := float64.fin 0,
    avgLatencySquare := float64.fin 0, SdvLatency := float64.fin 0,
    MinLatency := float64.fin 0, MaxLatency := float64.fin 0,
    FailCnt := 0, SuccCnt := 0 }

/-- The method `Fail`. -/
def Fail (ps : raftPeerStats F) : raftPeerStats F :=
  { ps with FailCnt := wrapUint64 (ps.FailCnt + 1) }

/-- The method `Succ`, for a duration `d` in nanoseconds; `sqrt` is the
square root of the field, used by `math.Sqrt`. -/
def Succ (sqrt : F → F) (ps : raftPeerStats F) (d : Int) : raftPeerStats F :=
  let total := float64.mul (float64.ofNat ps.SuccCnt) ps.AvgLatency
  let totalSquare := float64.mul (float64.ofNat ps.SuccCnt) ps.avgLatencySquare
  let succCnt := wrapUint64 (ps.SuccCnt + 1)
  let latency := float64.div (float64.ofInt d) (float64.fin 1000000)
  let maxLatency := if float64.gt latency ps.MaxLatency then latency else ps.MaxLatency
  let minLatency := if float64.lt latency ps.MinLatency then latency else ps.MinLatency
  let avgLatency := float64.div (float64.add total latency) (float64.ofNat succCnt)
  let avgLatencySquare :=
    float64.div (float64.add totalSquare (float64.mul latency latency))
      (float64.ofNat succCnt)
  -- sdv = sqrt(avg(x^2) - avg(x)^2)
  let sdvLatency :=
    float64.Sqrt sqrt (float64.sub avgLatencySquare (float64.mul avgLatency avgLatency))
  { ps with
    SuccCnt := succCnt
    Latency := latency
    MaxLatency := maxLatency
    MinLatency := minLatency
    AvgLatency := avgLatency
    avgLatencySquare := avgLatencySquare
    SdvLatency := sdvLatency }

/-- A sequence of `Succ` calls with the durations `ds`, in order. -/
def succAll (sqrt : F → F) (ps : raftPeerStats F) (ds : List Int) : raftPeerStats F :=
  ds.foldl (Succ sqrt) ps

end raftPeerStats

/-! ## `raftServerStats` -/

/-- The constant `raft.Follower` of package `go-raft`. -/
def raftFollower : String := "follower"

/-- The constant `raft.Leader` of package `go-raft`. -/
def raftLeader : String := "leader"

/-- The struct `raftServerStats`. The two queue fields are pointers, `none`
being `nil`; the two queues are separate objects, so a write through one
pointer is not seen through the other. -/
structure raftServerStats where
  State : String
  StartTime : Int
  Leader : String
  leaderStartTime : Int
  LeaderUptime : String
  RecvAppendRequestCnt : Nat
  SendAppendRequestCnt : Nat
  SendAppendReqeustRate : Nat
  sendRateQueue : Option statsQueue
  recvRateQueue : Option statsQueue
  SendingPkgRate : float64 ℚ
  SendingBandwidthRate : float64 ℚ
  RecvingPkgRate : float64 ℚ
  RecvingBandwidthRate : float64 ℚ

namespace raftServerStats

/-- The zero value of `raftServerStats`: both queue pointers are `nil`. -/
def zero : raftServerStats :=
  { State := "", StartTime := 0, Leader := "", leaderStartTime := 0, LeaderUptime := "",
    RecvAppendRequestCnt := 0, SendAppendRequestCnt := 0, SendAppendReqeustRate := 0,
    sendRateQueue := none, recvRateQueue := none,
    SendingPkgRate := float64.fin 0, SendingBandwidthRate := float64.fin 0,
    RecvingPkgRate := float64.fin 0, RecvingBandwidthRate := float64.fin 0 }

/-- The zero value with its two queues allocated: each queue pointer refers
to a zero-valued `statsQueue`. -/
def fresh : raftServerStats :=
  { zero with sendRateQueue := some statsQueue.zero, recvRateQueue := some statsQueue.zero }

/-- The method `RecvAppendReq`. `now1` and `now2` are the values of the two
`time.Now()` calls, in program order; `none` is a panic. -/
def RecvAppendReq (ss : raftServerStats) (now1 now2 : Int) (leaderName : String)
    (pkgSize : Int) : Option raftServerStats := do
  -- ss.State = raft.Follower
  let ss1 := { ss with State := raftFollower }
  -- if leaderName != ss.Leader { ss.Leader = leaderName; ss.leaderStartTime = time.Now() }
  let ss2 := if leaderName ≠ ss1.Leader then
      { ss1 with Leader := leaderName, leaderStartTime := now1 }
    else ss1
  -- ss.recvRateQueue.Insert(NewPackageStats(time.Now(), pkgSize))
  let q ← ss2.recvRateQueue
  let q1 ← q.Insert (NewPackageStats now2 pkgSize)
  -- ss.RecvAppendRequestCnt++
  pure { ss2 with
    recvRateQueue := some q1
    RecvAppendRequestCnt := wrapUint64 (ss2.RecvAppendRequestCnt + 1) }

/-- The method `SendAppendReq`. `name` is the value of `r.Name()`, the node's
own name; `now1` and `now2` are the values of the two `time.Now()` calls, in
program order; `none` is a panic. -/
def SendAppendReq (ss : raftServerStats) (name : String) (now1 now2 : Int)
    (pkgSize : Int) : Option raftServerStats := do
  -- now := time.Now()
  -- if ss.State != raft.Leader { State = raft.Leader; Leader = r.Name(); leaderStartTime = now }
  let ss1 := if ss.State ≠ raftLeader then
      { ss with State := raftLeader, Leader := name, leaderStartTime := now1 }
    else ss
  -- ss.sendRateQueue.Insert(NewPackageStats(time.Now(), pkgSize))
  let q ← ss1.sendRateQueue
  let q1 ← q.Insert (NewPackageStats now2 pkgSize)
  -- ss.SendAppendRequestCnt++
  pure { ss1 with
    sendRateQueue := some q1
    SendAppendRequestCnt := wrapUint64 (ss1.SendAppendRequestCnt + 1) }

/-- One call on a `raftServerStats`, with the clock readings it makes. -/
inductive Call where
  | recv (now1 now2 : Int) (leaderName : String) (pkgSize : Int) : Call
  | send (now1 now2 : Int) (pkgSize : Int) : Call

/-- The effect of one call, on a node whose own name is `name`. -/
def step (name : String) (ss : raftServerStats) : Call → Option raftServerStats
  | Call.recv now1 now2 leaderName pkgSize => ss.RecvAppendReq now1 now2 leaderName pkgSize
  | Call.send now1 now2 pkgSize => ss.SendAppendReq name now1 now2 pkgSize

/-- A sequence of calls, in order, stopping at the first panic. -/
def run (name : String) (ss : raftServerStats) : List Call → Option raftServerStats
  | [] => some ss
  | c :: cs => (step name ss c).bind (fun ss1 => run name ss1 cs)

/-- The value `State` must have right after the call `c`. -/
def stateAfter : Call → String
  | Call.recv _ _ _ _ => raftFollower
  | Call.send _ _ _ => raftLeader

end raftServerStats

/-! ## Quantities the statements refer to -/

/-- A duration in nanoseconds expressed in milliseconds. -/
def millis {F : Type} [LinearOrderedField F] (d : Int) : F := (d : F) / 1000000

/-- The sum of the latencies, in milliseconds, of the durations `ds`. -/
def sumMillis {F : Type} [LinearOrderedField F] (ds : List Int) : F :=
  (ds.map (fun d => (millis d : F))).sum

/-- The sum of the squared latencies, in milliseconds, of the durations `ds`. -/
def sumSqMillis {F : Type} [LinearOrderedField F] (ds : List Int) : F :=
  (ds.map (fun d => (millis d : F) ^ 2)).sum

/-- The sum of the squared deviations of the latencies of `ds` from `m`. -/
def sumSqDev {F : Type} [LinearOrderedField F] (m : F) (ds : List Int) : F :=
  (ds.map (fun d => ((millis d : F) - m) ^ 2)).sum

/-- The sum of the sizes of a list of samples. -/
def sumSizes (l : List packageStats) : Int := (l.map packageStats.size).sum

/-- The samples a window of capacity `queueCapacity` retains after the
inserts `l`: the last `min l.length queueCapacity` of them. -/
def retained (l : List packageStats) : List packageStats :=
  l.drop (l.length - queueCapacity.toNat)

/-- The size of the sample of index `i` (from zero) of `l`, `0` past the end. -/
def sizeAt (l : List packageStats) (i : Nat) : Int :=
  match l[i]? with
  | some p => p.size
  | none => 0

/-- The number `Insert` leaves in `totalPkgSize` after the inserts `l` on the
zero value, before wrap-around: the sum of all sizes up to `queueCapacity`
inserts; beyond, the sum of the retained sizes plus the size of the first
sample minus the size of sample number `queueCapacity`. -/
def totalAfter (l : List packageStats) : Int :=
  if l.length ≤ 200 then sumSizes l
  else sumSizes (retained l) + sizeAt l 0 - sizeAt l 199

/-- A run of 400 inserts of samples of size 0, except sample number 200, of
size 5. -/
def longRun : List packageStats :=
  List.replicate 199 ⟨0, 0⟩ ++ ⟨0, 5⟩ :: List.replicate 200 ⟨0, 0⟩

/-- A run of 250 inserts with pairwise different samples: the `i`-th sample
(from zero) is observed at `i` seconds and has size `i + 1`. -/
def sampleRun : List packageStats :=
  (List.range 250).map
    (fun (i : Nat) => { sendingTime := 1000000000 * (i : Int), size := (i : Int) + 1 })

/-- The shape of the queue reached from the zero value by the inserts `l`:
the counters as functions of the number of inserts, and the place of each of
the last `queueCapacity` samples (the `k`-th insert, counted from one, lands
in slot `k % queueCapacity`). -/
structure Reached (l : List packageStats) (q : statsQueue) : Prop where
  size_eq : q.size = min (l.length : Int) 200
  back_eq : q.back = (l.length : Int) % 200
  front_eq : q.front = if l.length ≤ 200 then 0 else ((l.length : Int) + 1) % 200
  slot_eq : ∀ k : Nat, 1 ≤ k → k ≤ l.length → l.length < k + 200 →
    q.items (k % 200) = l[k - 1]?
  slot_zero : l.length < 200 → q.items 0 = none

/-- The two queue pointers of `ss` are not nil and each queue has been built
by inserts of non-nil samples on a zero-valued `statsQueue`. -/
def raftServerStats.Usable (ss : raftServerStats) : Prop :=
  (∃ q l, ss.sendRateQueue = some q ∧ statsQueue.insertAll statsQueue.zero l = some q)
    ∧ (∃ q l, ss.recvRateQueue = some q ∧ statsQueue.insertAll statsQueue.zero l = some q)

/-! ## Lemmas on machine integers -/

theorem wrapInt_of_range (x : Int) (h1 : -(2 ^ 63) ≤ x) (h2 : x < 2 ^ 63) :
    wrapInt x = x := by
  unfold wrapInt
  omega

theorem tmod_capacity (x : Int) (h : 0 ≤ x) : x.tmod queueCapacity = x % 200 := by
  unfold queueCapacity
  exact Int.tmod_eq_emod h (by decide)

/-! ## Lemmas on `statsQueue` -/

namespace statsQueue

theorem insertAll_append (q : statsQueue) (l₁ l₂ : List packageStats) :
    insertAll q (l₁ ++ l₂) = (insertAll q l₁).bind (fun q1 => insertAll q1 l₂) := by
  induction l₁ generalizing q with
  | nil => simp [insertAll]
  | cons p ps ih =>
    simp only [List.cons_append, insertAll]
    cases h : q.Insert (some p) with
    | none => simp
    | some q1 => simp [ih]

theorem insertAll_snoc (q : statsQueue) (l : List packageStats) (p : packageStats) :
    insertAll q (l ++ [p]) = (insertAll q l).bind (fun q1 => q1.Insert (some p)) := by
  rw [insertAll_append]
  congr 1
  funext q1
  simp [insertAll]

theorem reached_zero : Reached [] zero := by
  constructor <;> simp [zero]

/-- The effect of `Insert` on a queue that is not full. -/
theorem Insert_not_full (q : statsQueue) (p : packageStats)
    (hsize : q.size ≠ 200) (hs0 : 0 ≤ q.size) (hs1 : q.size ≤ 200)
    (hb0 : 0 ≤ q.back) (hb1 : q.back < 200) :
    q.Insert (some p) = some
      { items := fun i => if i = ((q.back + 1) % 200).toNat then some p else q.items i
        size := q.size + 1
        front := q.front
        back := (q.back + 1) % 200
        totalPkgSize := wrapInt (q.totalPkgSize + p.size) } := by
  have e1 : wrapInt (q.back + 1) = q.back + 1 := wrapInt_of_range _ (by omega) (by omega)
  have e2 : (q.back + 1).tmod queueCapacity = (q.back + 1) % 200 :=
    tmod_capacity _ (by omega)
  have e3 : wrapInt (q.size + 1) = q.size + 1 := wrapInt_of_range _ (by omega) (by omega)
  have e4 : 0 ≤ (q.back + 1) % 200 ∧ (q.back + 1) % 200 < queueCapacity := by
    unfold queueCapacity
    omega
  have e5 : ¬ q.size = queueCapacity := hsize
  simp only [Insert, e1, e2, e3, e4, e5, if_false, if_true, and_self,
    Option.bind_eq_bind, Option.some_bind, Option.pure_def]

/-- The effect of `Insert` on a full queue whose front slot holds `old`. -/
theorem Insert_full (q : statsQueue) (p old : packageStats)
    (hsize : q.size = 200) (hf0 : 0 ≤ q.front) (hf1 : q.front < 200)
    (hold : q.items q.front.toNat = some old)
    (hb0 : 0 ≤ q.back) (hb1 : q.back < 200) :
    q.Insert (some p) = some
      { items := fun i => if i = ((q.back + 1) % 200).toNat then some p else q.items i
        size := q.size
        front := (q.back + 2) % 200
        back := (q.back + 1) % 200
        totalPkgSize := wrapInt (wrapInt (q.totalPkgSize - old.size) + p.size) } := by
  have e1 : wrapInt (q.back + 1) = q.back + 1 := wrapInt_of_range _ (by omega) (by omega)
  have e2 : (q.back + 1).tmod queueCapacity = (q.back + 1) % 200 :=
    tmod_capacity _ (by omega)
  have e3 : wrapInt (q.back + 2) = q.back + 2 := wrapInt_of_range _ (by omega) (by omega)
  have e4 : 0 ≤ (q.back + 1) % 200 ∧ (q.back + 1) % 200 < queueCapacity := by
    unfold queueCapacity
    omega
  have e5 : q.size = queueCapacity := hsize
  have e6 : (q.back + 2).tmod queueCapacity = (q.back + 2) % 200 :=
    tmod_capacity _ (by omega)
  have e7 : 0 ≤ q.front ∧ q.front < queueCapacity := ⟨hf0, hf1⟩
  simp only [Insert, index, e1, e2, e3, e4, e5, e6, e7, hold, if_true, and_self,
    Option.bind_eq_bind, Option.some_bind, Option.pure_def]

/-- In a reached full queue the slot at `front` is not nil. -/
theorem reached_front_some {l : List packageStats} {q : statsQueue} (h : Reached l q)
    (hlen : 200 ≤ l.length) : ∃ old, q.items q.front.toNat = some old := by
  by_cases h200 : l.length = 200
  · have hs := h.slot_eq 200 (by omega) (by omega) (by omega)
    have hlt : 200 - 1 < l.length := by omega
    rw [List.getElem?_eq_getElem hlt] at hs
    rw [h.front_eq, if_pos (by omega)]
    exact ⟨_, hs⟩
  · have hs := h.slot_eq (l.length - 199) (by omega) (by omega) (by omega)
    have hlt : l.length - 199 - 1 < l.length := by omega
    rw [List.getElem?_eq_getElem hlt] at hs
    have e : ((((l.length : Int) + 1) % 200).toNat) = (l.length - 199) % 200 := by omega
    rw [h.front_eq, if_neg (by omega), e]
    exact ⟨_, hs⟩

/-- The slots after the store of the next sample. -/
theorem reached_slots_step {l : List packageStats} {q : statsQueue} (h : Reached l q)
    (p : packageStats) (k : Nat) (h1 : 1 ≤ k) (h2 : k ≤ l.length + 1)
    (h3 : l.length + 1 < k + 200) :
    (if k % 200 = ((q.back + 1) % 200).toNat then some p else q.items (k % 200))
      = (l ++ [p])[k - 1]? := by
  have hidx : ((q.back + 1) % 200).toNat = (l.length + 1) % 200 := by
    rw [h.back_eq]
    omega
  rw [hidx]
  by_cases hk : k = l.length + 1
  · subst hk
    simp
  · have hne : k % 200 ≠ (l.length + 1) % 200 := by omega
    rw [if_neg hne, h.slot_eq k h1 (by omega) (by omega),
      List.getElem?_append_left (by omega)]

/-- One more insert into a reached queue does not panic and reaches the
queue of the longer sequence. -/
theorem reached_insert (l : List packageStats) (q : statsQueue) (p : packageStats)
    (h : Reached l q) : ∃ q1, q.Insert (some p) = some q1 ∧ Reached (l ++ [p]) q1 := by
  have hsize := h.size_eq
  have hback := h.back_eq
  have hfront := h.front_eq
  have hb0 : 0 ≤ q.back := by omega
  have hb1 : q.back < 200 := by omega
  have hslots := reached_slots_step h p
  have hzeros : l.length + 1 < 200 →
      (if 0 = ((q.back + 1) % 200).toNat then some p else q.items 0) = none := by
    intro hlt
    have hne : ¬ (0 = ((q.back + 1) % 200).toNat) := by omega
    rw [if_neg hne]
    exact h.slot_zero (by omega)
  by_cases hfull : q.size = 200
  · have hlen : 200 ≤ l.length := by omega
    obtain ⟨old, hold⟩ := reached_front_some h hlen
    have hf : 0 ≤ q.front ∧ q.front < 200 := by
      rw [hfront]
      split <;> omega
    refine ⟨_, Insert_full q p old hfull hf.1 hf.2 hold hb0 hb1, ?_⟩
    constructor
    · simp only [List.length_append, List.length_singleton]
      omega
    · simp only [List.length_append, List.length_singleton]
      omega
    · simp only [List.length_append, List.length_singleton]
      rw [if_neg (by omega)]
      omega
    · simpa only [List.length_append, List.length_singleton] using hslots
    · simpa only [List.length_append, List.length_singleton] using hzeros
  · have hlen : l.length < 200 := by omega
    refine ⟨_, Insert_not_full q p hfull (by omega) (by omega) hb0 hb1, ?_⟩
    constructor
    · simp only [List.length_append, List.length_singleton]
      omega
    · simp only [List.length_append, List.length_singleton]
      omega
    · simp only [List.length_append, List.length_singleton]
      rw [if_pos (by omega), hfront, if_pos (by omega)]
    · simpa only [List.length_append, List.length_singleton] using hslots
    · simpa only [List.length_append, List.length_singleton] using hzeros

/-- Every sequence of inserts of non-nil samples from the zero value runs
without panic and reaches the queue described by `Reached`. -/
theorem reached_insertAll (l : List packageStats) :
    ∃ q, insertAll zero l = some q ∧ Reached l q := by
  induction l using List.reverseRecOn with
  | nil => exact ⟨zero, rfl, reached_zero⟩
  | append_singleton l p ih =>
    obtain ⟨q, hq, hr⟩ := ih
    obtain ⟨q1, hq1, hr1⟩ := reached_insert l q p hr
    exact ⟨q1, by rw [insertAll_snoc, hq]; exact hq1, hr1⟩

theorem retained_getElem? (l : List packageStats) (k : Nat) :
    (retained l)[k]? = l[l.length - 200 + k]? := by
  unfold retained queueCapacity
  rw [List.getElem?_drop]
  rfl

theorem sampleRun_length_ge : queueCapacity ≤ (sampleRun.length : Int) := by
  unfold sampleRun queueCapacity
  rw [List.length_map, List.length_range]
  decide

theorem wrapInt_wrapInt_add (x y : Int) : wrapInt (wrapInt x + y) = wrapInt (x + y) := by
  unfold wrapInt
  omega

theorem wrapInt_wrapInt_sub (x y : Int) : wrapInt (wrapInt x - y) = wrapInt (x - y) := by
  unfold wrapInt
  omega

theorem sumSizes_append (l₁ l₂ : List packageStats) :
    sumSizes (l₁ ++ l₂) = sumSizes l₁ + sumSizes l₂ := by
  simp [sumSizes]

theorem sumSizes_drop (l : List packageStats) (k : Nat) (hk : k < l.length) :
    sumSizes (l.drop k) = sizeAt l k + sumSizes (l.drop (k + 1)) := by
  have e := List.drop_eq_getElem_cons hk
  unfold sumSizes sizeAt
  rw [e, List.map_cons, List.sum_cons, List.getElem?_eq_getElem hk]

theorem sizeAt_append_left (l : List packageStats) (p : packageStats) (k : Nat)
    (hk : k < l.length) : sizeAt (l ++ [p]) k = sizeAt l k := by
  simp [sizeAt, List.getElem?_append_left hk]

theorem sizeAt_of_getElem? (l : List packageStats) (k : Nat) (old : packageStats)
    (h : l[k]? = some old) : old.size = sizeAt l k := by
  simp [sizeAt, h]

/-- The closed form of `totalAfter` one insert later. -/
theorem totalAfter_snoc_small (l : List packageStats) (p : packageStats)
    (h : l.length < 200) : totalAfter (l ++ [p]) = totalAfter l + p.size := by
  unfold totalAfter
  rw [if_pos (by simp; omega), if_pos (by omega), sumSizes_append]
  simp [sumSizes]

theorem totalAfter_snoc_first (l : List packageStats) (p : packageStats)
    (h : l.length = 200) :
    totalAfter (l ++ [p]) = totalAfter l - sizeAt l 199 + p.size := by
  unfold totalAfter
  rw [if_neg (by simp; omega), if_pos (by omega)]
  have hr : retained (l ++ [p]) = l.drop 1 ++ [p] := by
    unfold retained queueCapacity
    have e : (l ++ [p]).length - (200 : Int).toNat = 1 := by
      simp only [List.length_append, List.length_singleton, h]
      rfl
    rw [e, List.drop_append_of_le_length (by omega)]
  have hd := sumSizes_drop l 0 (by omega)
  rw [List.drop_zero] at hd
  rw [hr, sumSizes_append, sizeAt_append_left l p 0 (by omega),
    sizeAt_append_left l p 199 (by omega), hd]
  simp [sumSizes]
  ring

theorem totalAfter_snoc_large (l : List packageStats) (p : packageStats)
    (h : 200 < l.length) :
    totalAfter (l ++ [p]) = totalAfter l - sizeAt l (l.length - 200) + p.size := by
  unfold totalAfter
  rw [if_neg (by simp; omega), if_neg (by omega)]
  have hr : retained (l ++ [p]) = l.drop (l.length - 200 + 1) ++ [p] := by
    unfold retained queueCapacity
    have e : (l ++ [p]).length - (200 : Int).toNat = l.length - 200 + 1 := by
      simp only [List.length_append, List.length_singleton]
      have : (200 : Int).toNat = 200 := rfl
      omega
    rw [e, List.drop_append_of_le_length (by omega)]
  have hr0 : retained l = l.drop (l.length - 200) := rfl
  have hd := sumSizes_drop l (l.length - 200) (by omega)
  rw [hr, hr0, sumSizes_append, sizeAt_append_left l p 0 (by omega),
    sizeAt_append_left l p 199 (by omega), hd]
  simp [sumSizes]
  ring

/-- One more insert into a reached queue whose `totalPkgSize` is
`totalAfter`, wrapped. -/
theorem total_insert (l : List packageStats) (q : statsQueue) (p : packageStats)
    (h : Reached l q) (ht : q.totalPkgSize = wrapInt (totalAfter l)) :
    ∃ q1, q.Insert (some p) = some q1 ∧ Reached (l ++ [p]) q1
      ∧ q1.totalPkgSize = wrapInt (totalAfter (l ++ [p])) := by
  obtain ⟨q1, hq1, hr1⟩ := reached_insert l q p h
  refine ⟨q1, hq1, hr1, ?_⟩
  have hsize := h.size_eq
  have hback := h.back_eq
  by_cases hfull : q.size = 200
  · have hlen : 200 ≤ l.length := by omega
    have hf : 0 ≤ q.front ∧ q.front < 200 := by
      rw [h.front_eq]
      split <;> omega
    obtain ⟨old, hold⟩ := reached_front_some h hlen
    have hins := Insert_full q p old hfull hf.1 hf.2 hold (by omega) (by omega)
    rw [hq1] at hins
    have hq : q1.totalPkgSize = wrapInt (wrapInt (q.totalPkgSize - old.size) + p.size) := by
      rw [Option.some.inj hins]
    rw [hq, ht, wrapInt_wrapInt_sub, wrapInt_wrapInt_add]
    by_cases h200 : l.length = 200
    · have hs := h.slot_eq 200 (by omega) (by omega) (by omega)
      rw [h.front_eq, if_pos (by omega)] at hold
      have e : l[200 - 1]? = some old := by
        rw [← hs]
        exact hold
      rw [totalAfter_snoc_first l p h200, sizeAt_of_getElem? l 199 old e]
    · have hs := h.slot_eq (l.length - 199) (by omega) (by omega) (by omega)
      have e1 : ((((l.length : Int) + 1) % 200).toNat) = (l.length - 199) % 200 := by omega
      rw [h.front_eq, if_neg (by omega), e1, hs] at hold
      have e2 : l.length - 199 - 1 = l.length - 200 := by omega
      rw [e2] at hold
      rw [totalAfter_snoc_large l p (by omega), sizeAt_of_getElem? l _ old hold]
  · have hlen : l.length < 200 := by omega
    have hins := Insert_not_full q p hfull (by omega) (by omega) (by omega) (by omega)
    rw [hq1] at hins
    have hq : q1.totalPkgSize = wrapInt (q.totalPkgSize + p.size) := by
      rw [Option.some.inj hins]
    rw [hq, ht, wrapInt_wrapInt_add, totalAfter_snoc_small l p hlen]

/-- Every sequence of inserts from the zero value leaves `totalAfter`,
wrapped, in `totalPkgSize`. -/
theorem total_insertAll (l : List packageStats) :
    ∃ q, insertAll zero l = some q ∧ Reached l q
      ∧ q.totalPkgSize = wrapInt (totalAfter l) := by
  induction l using List.reverseRecOn with
  | nil => exact ⟨zero, rfl, reached_zero, rfl⟩
  | append_singleton l p ih =>
    obtain ⟨q, hq, hr, ht⟩ := ih
    obtain ⟨q1, hq1, hr1, ht1⟩ := total_insert l q p hr ht
    exact ⟨q1, by rw [insertAll_snoc, hq]; exact hq1, hr1, ht1⟩

/-! ## Theorems on `statsQueue` -/

/-- C1 (the code departs from it): `Size()` is claimed to be the exact sum of
the sizes of the retained samples after any number of inserts. After 201
inserts, the first of size 1 and the others of size 0, the retained samples
(inserts 2 to 201) have sizes summing to 0 while `Size()` returns 1: the first
insert into the full queue subtracts the size of the slot at `front = 0`, which
holds the newest sample (insert 200), and overwrites slot 1, which holds the
oldest (insert 1). -/
theorem C1_size_after_first_eviction :
    (insertAll zero (⟨0, 1⟩ :: List.replicate 200 ⟨0, 0⟩)).map Size = some 1
      ∧ sumSizes (retained (⟨0, 1⟩ :: List.replicate 200 ⟨0, 0⟩)) = 0 := by
  set_option maxRecDepth 100000 in decide

/-- C2: every sequence of `n` inserts from the zero-valued queue runs to
completion and leaves `Len() = min n queueCapacity`; so `Len()` never exceeds
`queueCapacity`, and equals it once `queueCapacity` or more samples have been
inserted. -/
theorem C2_len_eq_min (l : List packageStats) :
    ∃ q, insertAll zero l = some q
      ∧ q.Len = min (l.length : Int) queueCapacity
      ∧ q.Len ≤ queueCapacity
      ∧ (queueCapacity ≤ (l.length : Int) → q.Len = queueCapacity) := by
  obtain ⟨q, hq, hr⟩ := reached_insertAll l
  have hs := hr.size_eq
  refine ⟨q, hq, ?_, ?_, ?_⟩
  · exact hs
  · unfold Len queueCapacity
    omega
  · unfold Len queueCapacity
    omega

/-- C3: after `n ≥ queueCapacity` inserts from the zero-valued queue, the
`i`-th inserted sample (counted from one) of the last `queueCapacity` sits in
slot `i % queueCapacity`; read from the oldest, the slots are the retained
samples in insertion order, so every slot holds one of them; and the next
`Insert` stores its sample in the slot that held the earliest-inserted
retained sample and changes no other slot. -/
theorem C3_insert_evicts_oldest (l : List packageStats)
    (hlen : queueCapacity ≤ (l.length : Int)) :
    ∃ q, insertAll zero l = some q
      ∧ (∀ i : Nat, 1 ≤ i → i ≤ l.length → (l.length : Int) < i + queueCapacity →
          q.items (i % queueCapacity.toNat) = l[i - 1]?)
      ∧ (∀ k : Nat, (k : Int) < queueCapacity →
          q.items ((l.length - 199 + k) % queueCapacity.toNat) = (retained l)[k]?
            ∧ ∃ s, (retained l)[k]? = some s)
      ∧ (∀ p : packageStats, ∃ q1, q.Insert (some p) = some q1
          ∧ q.items q1.back.toNat = (retained l)[0]?
          ∧ q1.items q1.back.toNat = some p
          ∧ ∀ j : Nat, j ≠ q1.back.toNat → q1.items j = q.items j) := by
  obtain ⟨q, hq, hr⟩ := reached_insertAll l
  have hcap : queueCapacity.toNat = 200 := rfl
  unfold queueCapacity at hlen
  refine ⟨q, hq, ?_, ?_, ?_⟩
  · intro i h1 h2 h3
    unfold queueCapacity at h3
    rw [hcap]
    exact hr.slot_eq i h1 h2 (by omega)
  · intro k hk
    unfold queueCapacity at hk
    rw [hcap, retained_getElem?, hr.slot_eq (l.length - 199 + k) (by omega) (by omega) (by omega)]
    have e : l.length - 199 + k - 1 = l.length - 200 + k := by omega
    have hlt : l.length - 200 + k < l.length := by omega
    rw [e]
    exact ⟨rfl, _, List.getElem?_eq_getElem hlt⟩
  · intro p
    obtain ⟨old, hold⟩ := reached_front_some hr (by omega)
    have hb := hr.back_eq
    have hf : 0 ≤ q.front ∧ q.front < 200 := by
      rw [hr.front_eq]
      split <;> omega
    have hs : q.size = 200 := by
      rw [hr.size_eq]
      omega
    refine ⟨_, Insert_full q p old hs hf.1 hf.2 hold (by omega) (by omega), ?_, ?_, ?_⟩
    · have e : ((q.back + 1) % 200).toNat = (l.length - 199) % 200 := by omega
      simp only [e]
      have e2 : l.length - 199 - 1 = l.length - 200 + 0 := by omega
      rw [retained_getElem?, hr.slot_eq (l.length - 199) (by omega) (by omega) (by omega), e2]
    · simp
    · intro j hj
      simp only at hj
      simp only [hj, if_false]

/-- C3 at a concrete run: 250 inserts of pairwise different samples. -/
theorem C3_insert_evicts_oldest_witness :
    queueCapacity ≤ (sampleRun.length : Int)
      ∧ ∃ q, insertAll zero sampleRun = some q
      ∧ (∀ i : Nat, 1 ≤ i → i ≤ sampleRun.length →
          (sampleRun.length : Int) < i + queueCapacity →
          q.items (i % queueCapacity.toNat) = sampleRun[i - 1]?)
      ∧ (∀ k : Nat, (k : Int) < queueCapacity →
          q.items ((sampleRun.length - 199 + k) % queueCapacity.toNat)
              = (retained sampleRun)[k]?
            ∧ ∃ s, (retained sampleRun)[k]? = some s)
      ∧ (∀ p : packageStats, ∃ q1, q.Insert (some p) = some q1
          ∧ q.items q1.back.toNat = (retained sampleRun)[0]?
          ∧ q1.items q1.back.toNat = some p
          ∧ ∀ j : Nat, j ≠ q1.back.toNat → q1.items j = q.items j) :=
  ⟨sampleRun_length_ge, C3_insert_evicts_oldest sampleRun sampleRun_length_ge⟩

/-- C4 (the code departs from it): after the two inserts `(t = 0s, size 10)`
and `(t = 2s, size 30)` the claim expects `Rate() = (1, 20)`. The code returns
`(0, 0)`: the first insert goes to slot 1 while `front` stays 0, so
`frontAndBack` reads the nil slot 0 as the front element. -/
theorem C4_rate_two_samples :
    (insertAll zero [⟨0, 10⟩, ⟨2000000000, 30⟩]).bind Rate
      = some (float64.fin 0, float64.fin 0) := by
  decide

/-- C5 (the code departs from it): `Rate()` is claimed to return `(0, 0)`
whenever all samples carry one time stamp. After 200 inserts of a sample of
size 1 observed at time 0 the elapsed time is zero and the code divides by it:
`Rate()` returns `(+Inf, +Inf)`. -/
theorem C5_rate_equal_timestamps :
    (insertAll zero (List.replicate 200 ⟨0, 1⟩)).bind Rate
      = some (float64.pinf, float64.pinf) := by
  set_option maxRecDepth 100000 in decide

/-- C15 (the code departs from it): `frontAndBack()` is claimed to return
the oldest and the newest retained sample after any `n ≥ 1` inserts. After
one insert it returns a nil front: the sample is in slot 1 and `front` is 0.
After 200 inserts of pairwise different samples it returns the newest sample
(insert 200, in slot 0) as front and as back, while the oldest retained
sample is insert 1. -/
theorem C15_frontAndBack_front_slot :
    (insertAll zero [⟨7, 1⟩]).bind frontAndBack = some (none, some ⟨7, 1⟩)
      ∧ (insertAll zero (sampleRun.take 200)).bind frontAndBack
          = some (sampleRun[199]?, sampleRun[199]?)
      ∧ sampleRun[0]? ≠ sampleRun[199]? := by
  set_option maxRecDepth 100000 in decide

/-- C16, as stated, fails: in the full queue reached by 201 inserts `front`
is 2, and the next `Insert` moves it to 3, one position further, not to
`(2 + 2) % queueCapacity = 4`. -/
theorem C16_front_advances_by_two_counterexample :
    ∃ q q1, insertAll zero (List.replicate 201 ⟨0, 1⟩) = some q
      ∧ q.size = queueCapacity
      ∧ q.Insert (some ⟨0, 1⟩) = some q1
      ∧ q.front = 2 ∧ q1.front = 3
      ∧ q1.front ≠ (q.front + 2) % queueCapacity := by
  obtain ⟨q, hq, hr⟩ := reached_insertAll (List.replicate 201 ⟨0, 1⟩)
  obtain ⟨q1, hq1, hr1⟩ := reached_insert _ q ⟨0, 1⟩ hr
  have hs := hr.size_eq
  have hf := hr.front_eq
  have hf1 := hr1.front_eq
  simp only [List.length_append, List.length_replicate, List.length_singleton] at hs hf hf1
  have e : q.front = 2 := by
    rw [hf]
    decide
  have e1 : q1.front = 3 := by
    rw [hf1]
    decide
  refine ⟨q, q1, hq, ?_, hq1, e, e1, ?_⟩
  · rw [hs]
    decide
  · rw [e, e1]
    decide

/-- C16, amended: on every `Insert` into the full queue reached by
`n ≥ queueCapacity` inserts, the new `front` is `(back + 2) % queueCapacity`
with `back` the index before the call, which is the slot right after the new
`back`; read from the new `front`, the `queueCapacity` slots are the retained
samples in insertion order, so the span from `front` to `back` covers all of
them; and for `n > queueCapacity` the call advances `front` by one position. -/
theorem C16_front_follows_back (l : List packageStats) (p : packageStats)
    (hlen : queueCapacity ≤ (l.length : Int)) :
    ∃ q q1, insertAll zero l = some q
      ∧ q.Len = queueCapacity
      ∧ q.Insert (some p) = some q1
      ∧ q1.front = (q.back + 2) % queueCapacity
      ∧ q1.front = (q1.back + 1) % queueCapacity
      ∧ (∀ k : Nat, (k : Int) < queueCapacity →
          q1.items ((q1.front.toNat + k) % queueCapacity.toNat)
            = (retained (l ++ [p]))[k]?)
      ∧ (queueCapacity < (l.length : Int) →
          q1.front = (q.front + 1) % queueCapacity) := by
  obtain ⟨q, hq, hr⟩ := reached_insertAll l
  obtain ⟨q1, hq1, hr1⟩ := reached_insert l q p hr
  have hcap : queueCapacity.toNat = 200 := rfl
  rw [hcap]
  unfold queueCapacity at hlen ⊢
  have hs := hr.size_eq
  have hb := hr.back_eq
  have hf := hr.front_eq
  have hb1 := hr1.back_eq
  have hf1 := hr1.front_eq
  simp only [List.length_append, List.length_singleton] at hb1 hf1
  rw [if_neg (by omega)] at hf1
  push_cast at hb1 hf1
  refine ⟨q, q1, hq, ?_, hq1, ?_, ?_, ?_, ?_⟩
  · unfold Len
    omega
  · omega
  · omega
  · intro k hk
    have hsl := hr1.slot_eq (l.length - 198 + k) (by omega)
      (by simp only [List.length_append, List.length_singleton]; omega)
      (by simp only [List.length_append, List.length_singleton]; omega)
    have e1 : (q1.front.toNat + k) % 200 = (l.length - 198 + k) % 200 := by omega
    have e2 : l.length - 198 + k - 1 = (l ++ [p]).length - 200 + k := by
      simp only [List.length_append, List.length_singleton]
      omega
    rw [e1, hsl, retained_getElem?, e2]
  · intro hgt
    rw [if_neg (by omega)] at hf
    omega

/-- C16 amended, at the run of 250 different samples followed by one more
insert. -/
theorem C16_front_follows_back_witness :
    queueCapacity ≤ (sampleRun.length : Int)
      ∧ ∃ q q1, insertAll zero sampleRun = some q
      ∧ q.Len = queueCapacity
      ∧ q.Insert (some ⟨0, 0⟩) = some q1
      ∧ q1.front = (q.back + 2) % queueCapacity
      ∧ q1.front = (q1.back + 1) % queueCapacity
      ∧ (∀ k : Nat, (k : Int) < queueCapacity →
          q1.items ((q1.front.toNat + k) % queueCapacity.toNat)
            = (retained (sampleRun ++ [⟨0, 0⟩]))[k]?)
      ∧ (queueCapacity < (sampleRun.length : Int) →
          q1.front = (q.front + 1) % queueCapacity) :=
  ⟨sampleRun_length_ge, C16_front_follows_back sampleRun ⟨0, 0⟩ sampleRun_length_ge⟩

/-- C17 (the code departs from it): `Size()` is claimed never to be negative
when all sizes are non-negative. After the 400 inserts of `longRun` (sizes 0,
except sample 200 of size 5) `Size()` is `-5`: the size of sample 200 is
subtracted at insert 201, where slot 0 is read as the front, and once more at
insert 400, where slot 0 is evicted. -/
theorem C17_size_negative_after_400_inserts :
    (∀ p ∈ longRun, 0 ≤ p.size) ∧ (insertAll zero longRun).map Size = some (-5) := by
  constructor
  · intro p hp
    unfold longRun at hp
    simp only [List.mem_append, List.mem_cons, List.mem_replicate] at hp
    rcases hp with ⟨_, rfl⟩ | rfl | ⟨_, rfl⟩ <;> decide
  · obtain ⟨q, hq, _, ht⟩ := total_insertAll longRun
    have e : wrapInt (totalAfter longRun) = -5 := by
      set_option maxRecDepth 100000 in decide
    rw [hq, Option.map_some', Size, ht, e]

/-- C18: every sequence of inserts of non-nil samples from the zero value
runs without panic; afterwards `front` and `back` are valid indices, `back`
is the number of inserts modulo `queueCapacity`, the slot at `front` is
non-nil whenever the queue is full, and one more `Insert` of a non-nil
sample does not panic either. -/
theorem C18_indices_stay_valid (l : List packageStats) :
    ∃ q, insertAll zero l = some q
      ∧ 0 ≤ q.front ∧ q.front < queueCapacity
      ∧ 0 ≤ q.back ∧ q.back < queueCapacity
      ∧ q.back = (l.length : Int) % queueCapacity
      ∧ (q.size = queueCapacity → ∃ old, q.index q.front = some (some old))
      ∧ ∀ p : packageStats, ∃ q1, q.Insert (some p) = some q1 := by
  obtain ⟨q, hq, hr⟩ := reached_insertAll l
  have hb := hr.back_eq
  have hf : 0 ≤ q.front ∧ q.front < 200 := by
    rw [hr.front_eq]
    split <;> omega
  have hs := hr.size_eq
  unfold queueCapacity
  refine ⟨q, hq, hf.1, hf.2, by omega, by omega, hb, ?_, ?_⟩
  · intro hfull
    obtain ⟨old, hold⟩ := reached_front_some hr (by omega)
    refine ⟨old, ?_⟩
    unfold index queueCapacity
    rw [if_pos hf, hold]
  · intro p
    obtain ⟨q1, hq1, _⟩ := reached_insert l q p hr
    exact ⟨q1, hq1⟩

/-- C19: after fewer than `queueCapacity` inserts from the zero value,
whatever the samples, `front` is 0 and slot 0 is nil; `frontAndBack()`
returns a nil front (and the last inserted sample, if any, as back) and
`Rate()` returns `(0, 0)`. -/
theorem C19_rate_zero_below_capacity (l : List packageStats)
    (hlen : (l.length : Int) < queueCapacity) :
    ∃ q, insertAll zero l = some q
      ∧ q.front = 0
      ∧ q.items 0 = none
      ∧ q.frontAndBack = some (none, l.getLast?)
      ∧ q.Rate = some (float64.fin 0, float64.fin 0) := by
  obtain ⟨q, hq, hr⟩ := reached_insertAll l
  unfold queueCapacity at hlen
  have hf : q.front = 0 := by
    rw [hr.front_eq, if_pos (by omega)]
  have h0 : q.items 0 = none := hr.slot_zero (by omega)
  have hs := hr.size_eq
  have hb := hr.back_eq
  have hfb : q.frontAndBack = some (none, l.getLast?) := by
    unfold frontAndBack
    by_cases hnil : l.length = 0
    · have : l = [] := List.length_eq_zero.mp hnil
      subst this
      have : q.size = 0 := by simpa using hs
      simp [this]
    · have hsz : q.size ≠ 0 := by omega
      have hbr : 0 ≤ q.back ∧ q.back < queueCapacity := by
        unfold queueCapacity
        omega
      have hbi : q.back.toNat = l.length % 200 := by omega
      have hsl := hr.slot_eq l.length (by omega) (by omega) (by omega)
      simp only [hsz, ne_eq, not_false_eq_true, if_true, index, hf, hbr, and_self,
        Option.bind_eq_bind, Option.some_bind, Option.pure_def]
      have hq0 : (0 : Int) ≤ 0 ∧ (0 : Int) < queueCapacity := by decide
      rw [if_pos hq0, Option.some_bind, Int.toNat_zero, h0, hbi, hsl,
        List.getLast?_eq_getElem?]
  refine ⟨q, hq, hf, h0, hfb, ?_⟩
  unfold Rate
  rw [hfb]
  rfl

/-- C19 at three inserts with different time stamps and sizes. -/
theorem C19_rate_zero_below_capacity_witness :
    (([⟨0, 10⟩, ⟨1000000000, 20⟩, ⟨3000000000, 30⟩] : List packageStats).length : Int)
        < queueCapacity
      ∧ ∃ q, insertAll zero [⟨0, 10⟩, ⟨1000000000, 20⟩, ⟨3000000000, 30⟩] = some q
      ∧ q.front = 0
      ∧ q.items 0 = none
      ∧ q.frontAndBack = some (none,
          ([⟨0, 10⟩, ⟨1000000000, 20⟩, ⟨3000000000, 30⟩] : List packageStats).getLast?)
      ∧ q.Rate = some (float64.fin 0, float64.fin 0) :=
  ⟨by decide, C19_rate_zero_below_capacity _ (by decide)⟩

end statsQueue

/-! ## Lemmas on `raftPeerStats` -/

namespace raftPeerStats

variable {F : Type} [LinearOrderedField F]

theorem succAll_snoc (sqrt : F → F) (ps : raftPeerStats F) (ds : List Int) (d : Int) :
    succAll sqrt ps (ds ++ [d]) = Succ sqrt (succAll sqrt ps ds) d := by
  simp [succAll, List.foldl_append]

theorem latency_eq (d : Int) :
    float64.div (float64.ofInt d) (float64.fin (1000000 : F)) = float64.fin (millis d) := by
  have h : (1000000 : F) ≠ 0 := by norm_num
  simp [float64.div, float64.ofInt, millis, h]

/-- One `Succ` call on a state with finite means and a counter that does not
wrap around. -/
theorem Succ_means (sqrt : F → F) (ps : raftPeerStats F) (d : Int) (a b : F)
    (hk : ps.SuccCnt + 1 < 2 ^ 64)
    (ha : ps.AvgLatency = float64.fin a) (hb : ps.avgLatencySquare = float64.fin b) :
    (Succ sqrt ps d).SuccCnt = ps.SuccCnt + 1
      ∧ (Succ sqrt ps d).AvgLatency
          = float64.fin ((a * ps.SuccCnt + millis d) / (ps.SuccCnt + 1))
      ∧ (Succ sqrt ps d).avgLatencySquare
          = float64.fin ((b * ps.SuccCnt + millis d ^ 2) / (ps.SuccCnt + 1)) := by
  have hw : wrapUint64 (ps.SuccCnt + 1) = ps.SuccCnt + 1 := Nat.mod_eq_of_lt hk
  have hne : ((ps.SuccCnt : F) + 1) ≠ 0 := by positivity
  refine ⟨?_, ?_, ?_⟩
  · simp only [Succ, hw]
  · simp only [Succ, hw, ha, latency_eq]
    simp [float64.div, float64.add, float64.mul, float64.ofNat, hne, mul_comm]
  · simp only [Succ, hw, hb, latency_eq]
    simp [float64.div, float64.add, float64.mul, float64.ofNat, hne, mul_comm, sq]

theorem Succ_latency (sqrt : F → F) (ps : raftPeerStats F) (d : Int) :
    (Succ sqrt ps d).Latency = float64.fin (millis d) := by
  simp only [Succ, latency_eq]

theorem Succ_sdv (sqrt : F → F) (ps : raftPeerStats F) (d : Int) :
    (Succ sqrt ps d).SdvLatency = float64.Sqrt sqrt (float64.sub
      (Succ sqrt ps d).avgLatencySquare
      (float64.mul (Succ sqrt ps d).AvgLatency (Succ sqrt ps d).AvgLatency)) := rfl

/-- The counter and the two means after the calls `Succ(d)` for `d` in `ds`
on the zero value, as long as the counter does not wrap around. -/
theorem succAll_means (sqrt : F → F) (ds : List Int) (hlen : ds.length < 2 ^ 64) :
    (succAll sqrt zero ds).SuccCnt = ds.length
      ∧ (succAll sqrt zero ds).AvgLatency = float64.fin (sumMillis ds / (ds.length : F))
      ∧ (succAll sqrt zero ds).avgLatencySquare
          = float64.fin (sumSqMillis ds / (ds.length : F)) := by
  induction ds using List.reverseRecOn with
  | nil => simp [succAll, zero, sumMillis, sumSqMillis]
  | append_singleton ds d ih =>
    rw [List.length_append, List.length_singleton] at hlen
    obtain ⟨hc, ha, hb⟩ := ih (by omega)
    obtain ⟨hc1, ha1, hb1⟩ := Succ_means sqrt (succAll sqrt zero ds) d _ _
      (by rw [hc]; exact hlen) ha hb
    rw [succAll_snoc, hc1, ha1, hb1, hc]
    refine ⟨by simp, ?_, ?_⟩
    · congr 1
      simp only [sumMillis, List.map_append, List.sum_append, List.map_cons, List.map_nil,
        List.sum_cons, List.sum_nil, add_zero, List.length_append, List.length_singleton,
        Nat.cast_add, Nat.cast_one]
      rcases Nat.eq_zero_or_pos ds.length with h0 | hpos
      · have : ds = [] := List.length_eq_zero.mp h0
        subst this
        simp
      · have : (ds.length : F) ≠ 0 := by positivity
        field_simp
    · congr 1
      simp only [sumSqMillis, List.map_append, List.sum_append, List.map_cons, List.map_nil,
        List.sum_cons, List.sum_nil, add_zero, List.length_append, List.length_singleton,
        Nat.cast_add, Nat.cast_one]
      rcases Nat.eq_zero_or_pos ds.length with h0 | hpos
      · have : ds = [] := List.length_eq_zero.mp h0
        subst this
        simp
      · have : (ds.length : F) ≠ 0 := by positivity
        field_simp

theorem millis_nonneg (d : Int) (h : 0 ≤ d) : (0 : F) ≤ millis d := by
  unfold millis
  exact div_nonneg (Int.cast_nonneg.mpr h) (by norm_num)

theorem Succ_max (sqrt : F → F) (ps : raftPeerStats F) (d : Int) (M : F)
    (hM : ps.MaxLatency = float64.fin M) :
    (Succ sqrt ps d).MaxLatency = float64.fin (if M < millis d then millis d else M) := by
  simp only [Succ, latency_eq, hM, float64.gt, float64.lt]
  by_cases h : M < millis d <;> simp [h]

theorem Succ_min (sqrt : F → F) (ps : raftPeerStats F) (d : Int) (m : F)
    (hm : ps.MinLatency = float64.fin m) :
    (Succ sqrt ps d).MinLatency = float64.fin (if millis d < m then millis d else m) := by
  simp only [Succ, latency_eq, hm, float64.lt]
  by_cases h : millis d < m <;> simp [h]

/-- The field `MaxLatency` after `Succ` calls with non-negative durations on
the zero value: the largest latency seen, `0` before the first call. -/
theorem succAll_max (sqrt : F → F) (ds : List Int) (hnn : ∀ d ∈ ds, 0 ≤ d) :
    ∃ M : F, (succAll sqrt zero ds).MaxLatency = float64.fin M
      ∧ (ds = [] → M = 0)
      ∧ (∀ d ∈ ds, (millis d : F) ≤ M)
      ∧ (ds ≠ [] → ∃ m ∈ ds, M = millis m) := by
  induction ds using List.reverseRecOn with
  | nil => exact ⟨0, rfl, fun _ => rfl, by simp, by simp⟩
  | append_singleton ds d ih =>
    obtain ⟨M, hM, h0, hle, hex⟩ := ih (fun x hx => hnn x (by simp [hx]))
    have hd : (0 : F) ≤ millis d := millis_nonneg d (hnn d (by simp))
    rw [succAll_snoc]
    refine ⟨_, Succ_max sqrt _ d M hM, by simp, ?_, ?_⟩
    · intro x hx
      rcases List.mem_append.mp hx with hx | hx
      · have := hle x hx
        split <;> linarith
      · rw [List.mem_singleton] at hx
        subst hx
        split <;> linarith
    · intro _
      by_cases hlt : M < millis d
      · exact ⟨d, by simp, by rw [if_pos hlt]⟩
      · rw [if_neg hlt]
        by_cases hnil : ds = []
        · refine ⟨d, by simp, ?_⟩
          have := h0 hnil
          linarith
        · obtain ⟨m, hm, hmM⟩ := hex hnil
          exact ⟨m, by simp [hm], hmM⟩

/-- The field `MinLatency` after `Succ` calls with non-negative durations on
the zero value: it never leaves its initial value `0`. -/
theorem succAll_min (sqrt : F → F) (ds : List Int) (hnn : ∀ d ∈ ds, 0 ≤ d) :
    (succAll sqrt zero ds).MinLatency = float64.fin 0 := by
  induction ds using List.reverseRecOn with
  | nil => rfl
  | append_singleton ds d ih =>
    have hd : (0 : F) ≤ millis d := millis_nonneg d (hnn d (by simp))
    rw [succAll_snoc, Succ_min sqrt _ d 0 (ih (fun x hx => hnn x (by simp [hx]))),
      if_neg (not_lt.mpr hd)]

/-- The sum-of-squares identity: the sum of squared deviations from `m`. -/
theorem sumSqDev_eq (m : F) (ds : List Int) :
    sumSqDev m ds = sumSqMillis ds - 2 * m * sumMillis ds + ds.length * m ^ 2 := by
  induction ds with
  | nil => simp [sumSqDev, sumSqMillis, sumMillis]
  | cons d ds ih =>
    simp only [sumSqDev, sumSqMillis, sumMillis, List.map_cons, List.sum_cons,
      List.length_cons, Nat.cast_add, Nat.cast_one] at ih ⊢
    rw [ih]
    ring

theorem sumSqDev_nonneg (m : F) (ds : List Int) : 0 ≤ sumSqDev m ds := by
  unfold sumSqDev
  apply List.sum_nonneg
  intro x hx
  obtain ⟨d, _, rfl⟩ := List.mem_map.mp hx
  positivity

/-- The mean of the squares minus the square of the mean is the population
variance. -/
theorem variance_eq (ds : List Int) (hne : ds ≠ []) :
    sumSqMillis ds / (ds.length : F) - (sumMillis ds / (ds.length : F)) ^ 2
      = sumSqDev (sumMillis ds / (ds.length : F)) ds / (ds.length : F) := by
  have hpos : 0 < ds.length := List.length_pos.mpr hne
  have hn : (ds.length : F) ≠ 0 := by positivity
  rw [sumSqDev_eq]
  field_simp
  ring

/-! ## Theorems on `raftPeerStats` -/

/-- C6: after the calls `Succ(d)` for `d` in a non-empty `ds` (shorter than
`2^64`, the range of the counter) on the zero value, in exact arithmetic,
`SuccCnt` is the number of calls, `AvgLatency` the arithmetic mean of the
latencies in milliseconds and `avgLatencySquare` the mean of their squares;
and each call obeys `mean' = (mean * k + x) / (k + 1)`, likewise for the mean
of squares, with `k` the value of `SuccCnt` before the call. -/
theorem C6_succ_running_mean (sqrt : F → F) (ds : List Int) (hne : ds ≠ [])
    (hlen : ds.length < 2 ^ 64) :
    (succAll sqrt zero ds).SuccCnt = ds.length
      ∧ (succAll sqrt zero ds).AvgLatency = float64.fin (sumMillis ds / (ds.length : F))
      ∧ (succAll sqrt zero ds).avgLatencySquare
          = float64.fin (sumSqMillis ds / (ds.length : F))
      ∧ ∀ (pre : List Int) (d : Int) (post : List Int), ds = pre ++ d :: post →
          ∃ mean meanSq : F, ∃ k : Nat,
            (succAll sqrt zero pre).SuccCnt = k
            ∧ (succAll sqrt zero pre).AvgLatency = float64.fin mean
            ∧ (succAll sqrt zero pre).avgLatencySquare = float64.fin meanSq
            ∧ (Succ sqrt (succAll sqrt zero pre) d).SuccCnt = k + 1
            ∧ (Succ sqrt (succAll sqrt zero pre) d).AvgLatency
                = float64.fin ((mean * k + millis d) / (k + 1))
            ∧ (Succ sqrt (succAll sqrt zero pre) d).avgLatencySquare
                = float64.fin ((meanSq * k + millis d ^ 2) / (k + 1)) := by
  have _ := hne
  obtain ⟨hc, ha, hb⟩ := succAll_means sqrt ds hlen
  refine ⟨hc, ha, hb, ?_⟩
  intro pre d post hds
  have hpre : pre.length + 1 < 2 ^ 64 := by
    have : ds.length = pre.length + (post.length + 1) := by
      rw [hds, List.length_append, List.length_cons]
    omega
  obtain ⟨hc0, ha0, hb0⟩ := succAll_means sqrt pre (by omega)
  obtain ⟨hc1, ha1, hb1⟩ := Succ_means sqrt (succAll sqrt zero pre) d _ _
    (by rw [hc0]; exact hpre) ha0 hb0
  exact ⟨_, _, _, rfl, ha0, hb0, hc1, ha1, hb1⟩

/-- C6 at the durations 10ms, 20ms, 30ms over the reals: `SuccCnt = 3` and
`AvgLatency = 20`. -/
theorem C6_succ_running_mean_witness :
    ([10000000, 20000000, 30000000] : List Int) ≠ []
      ∧ (succAll Real.sqrt zero [10000000, 20000000, 30000000]).SuccCnt = 3
      ∧ (succAll Real.sqrt zero [10000000, 20000000, 30000000]).AvgLatency
          = float64.fin 20 := by
  obtain ⟨hc, ha, _⟩ := C6_succ_running_mean Real.sqrt [10000000, 20000000, 30000000]
    (by simp) (by simp)
  refine ⟨by simp, hc, ?_⟩
  rw [ha]
  congr 1
  norm_num [sumMillis, millis]

/-- C7: after the calls `Succ(d)` for `d` in a non-empty `ds` (shorter than
`2^64`) on the zero value, in exact real arithmetic, the three fields are
finite, `avgLatencySquare - AvgLatency^2` is non-negative and is the
population variance of the latencies, and `SdvLatency` is its non-negative
square root: `SdvLatency^2 = avgLatencySquare - AvgLatency^2`. -/
theorem C7_sdv_population_deviation (ds : List Int) (hne : ds ≠ [])
    (hlen : ds.length < 2 ^ 64) :
    ∃ avg avgSq sdv : ℝ,
      (succAll Real.sqrt zero ds).AvgLatency = float64.fin avg
        ∧ (succAll Real.sqrt zero ds).avgLatencySquare = float64.fin avgSq
        ∧ (succAll Real.sqrt zero ds).SdvLatency = float64.fin sdv
        ∧ 0 ≤ avgSq - avg ^ 2
        ∧ sdv ^ 2 = avgSq - avg ^ 2
        ∧ 0 ≤ sdv
        ∧ avg = sumMillis ds / (ds.length : ℝ)
        ∧ avgSq - avg ^ 2 = sumSqDev avg ds / (ds.length : ℝ) := by
  obtain ⟨_, ha, hb⟩ := succAll_means Real.sqrt ds hlen
  have hvar := variance_eq (F := ℝ) ds hne
  have hnn : 0 ≤ sumSqMillis ds / (ds.length : ℝ) - (sumMillis ds / (ds.length : ℝ)) ^ 2 := by
    rw [hvar]
    exact div_nonneg (sumSqDev_nonneg _ ds) (Nat.cast_nonneg _)
  refine ⟨_, _, Real.sqrt (sumSqMillis ds / (ds.length : ℝ)
    - (sumMillis ds / (ds.length : ℝ)) ^ 2), ha, hb, ?_, hnn, Real.sq_sqrt hnn,
    Real.sqrt_nonneg _, rfl, hvar⟩
  obtain ⟨pre, d, rfl⟩ : ∃ pre d, ds = pre ++ [d] :=
    ⟨ds.dropLast, ds.getLast hne, (List.dropLast_append_getLast hne).symm⟩
  rw [succAll_snoc] at ha hb ⊢
  rw [Succ_sdv, ha, hb]
  simp only [float64.sub, float64.mul, float64.neg, float64.add, float64.Sqrt]
  rw [if_neg (by rw [← sq, ← sub_eq_add_neg]; exact not_lt.mpr hnn), ← sq, ← sub_eq_add_neg]

/-- C7 at the durations 10ms, 20ms, 30ms: `SdvLatency^2 = 200/3`. -/
theorem C7_sdv_population_deviation_witness :
    ([10000000, 20000000, 30000000] : List Int) ≠ []
      ∧ ∃ sdv : ℝ, (succAll Real.sqrt zero [10000000, 20000000, 30000000]).SdvLatency
          = float64.fin sdv ∧ sdv ^ 2 = 200 / 3 ∧ 0 ≤ sdv := by
  obtain ⟨avg, avgSq, sdv, _, _, hs, _, hsq, hpos, havg, hvar⟩ :=
    C7_sdv_population_deviation [10000000, 20000000, 30000000] (by simp) (by simp)
  refine ⟨by simp, sdv, hs, ?_, hpos⟩
  rw [hsq, hvar, havg]
  norm_num [sumSqDev, sumMillis, millis]

/-- C8 (the code departs from it): after `Succ(10ms)`, `Succ(20ms)`,
`Succ(30ms)` on the zero value the claim expects `MinLatency = 10`. The code
leaves `MinLatency = 0`: the field starts at `0` and `Latency < MinLatency`
never holds for a non-negative duration. -/
theorem C8_min_latency_stays_zero (sqrt : F → F) :
    (succAll sqrt zero [10000000, 20000000, 30000000]).MinLatency = float64.fin 0
      ∧ (millis 10000000 : F) = 10 := by
  refine ⟨succAll_min sqrt _ (by decide), ?_⟩
  norm_num [millis]

/-- C9: after the calls `Succ(d)` for `d` in a non-empty `ds` of non-negative
durations on the zero value, `MaxLatency` is the largest latency observed, in
milliseconds, and `Latency` is the last one. -/
theorem C9_max_and_last_latency (sqrt : F → F) (ds : List Int) (hne : ds ≠ [])
    (hnn : ∀ d ∈ ds, 0 ≤ d) :
    (∃ m ∈ ds, (succAll sqrt zero ds).MaxLatency = float64.fin (millis m)
        ∧ ∀ d ∈ ds, (millis d : F) ≤ millis m)
      ∧ (succAll sqrt zero ds).Latency = float64.fin (millis (ds.getLast hne)) := by
  constructor
  · obtain ⟨M, hM, _, hle, hex⟩ := succAll_max sqrt ds hnn
    obtain ⟨m, hm, rfl⟩ := hex hne
    exact ⟨m, hm, hM, hle⟩
  · have h := List.dropLast_append_getLast hne
    have e : succAll sqrt zero ds
        = succAll sqrt zero (ds.dropLast ++ [ds.getLast hne]) := by rw [h]
    rw [e, succAll_snoc, Succ_latency]

/-- C9 at the durations 10ms, 20ms, 30ms over the reals: `MaxLatency = 30`
and `Latency = 30`. -/
theorem C9_max_and_last_latency_witness :
    (∀ d ∈ ([10000000, 20000000, 30000000] : List Int), 0 ≤ d)
      ∧ (succAll Real.sqrt zero [10000000, 20000000, 30000000]).MaxLatency
          = float64.fin 30
      ∧ (succAll Real.sqrt zero [10000000, 20000000, 30000000]).Latency
          = float64.fin 30 := by
  obtain ⟨⟨m, hm, hmax, hle⟩, hlast⟩ :=
    C9_max_and_last_latency Real.sqrt [10000000, 20000000, 30000000] (by simp) (by decide)
  refine ⟨by decide, ?_, ?_⟩
  · have h30 := hle 30000000 (by simp)
    have hm30 : (millis m : ℝ) = 30 := by
      simp only [List.mem_cons, List.mem_singleton, List.not_mem_nil, or_false] at hm
      rcases hm with rfl | rfl | rfl <;> norm_num [millis] at h30 ⊢
    rw [hmax, hm30]
  · rw [hlast]
    norm_num [millis]

end raftPeerStats

/-- C10: for every state, `Fail()` increases `FailCnt` by one modulo `2^64`
and leaves `Latency`, `AvgLatency`, `avgLatencySquare`, `SdvLatency`,
`MinLatency`, `MaxLatency` and `SuccCnt` unchanged. -/
theorem raftPeerStats.C10_fail_frame {F : Type} (ps : raftPeerStats F) :
    ps.Fail.FailCnt = (ps.FailCnt + 1) % 2 ^ 64
      ∧ ps.Fail.Latency = ps.Latency
      ∧ ps.Fail.AvgLatency = ps.AvgLatency
      ∧ ps.Fail.avgLatencySquare = ps.avgLatencySquare
      ∧ ps.Fail.SdvLatency = ps.SdvLatency
      ∧ ps.Fail.MinLatency = ps.MinLatency
      ∧ ps.Fail.MaxLatency = ps.MaxLatency
      ∧ ps.Fail.SuccCnt = ps.SuccCnt :=
  ⟨rfl, rfl, rfl, rfl, rfl, rfl, rfl, rfl⟩

/-! ## Lemmas on `raftServerStats` -/

namespace raftServerStats

/-- An insert of a fresh sample into a queue built by inserts does not panic
and gives the queue built by one more insert. -/
theorem insert_built (q : statsQueue) (l : List packageStats) (now size : Int)
    (hl : statsQueue.insertAll statsQueue.zero l = some q) :
    ∃ q1, q.Insert (NewPackageStats now size) = some q1
      ∧ statsQueue.insertAll statsQueue.zero (l ++ [⟨now, size⟩]) = some q1 := by
  obtain ⟨q0, hq0, hr⟩ := statsQueue.reached_insertAll l
  rw [hl] at hq0
  cases Option.some.inj hq0
  obtain ⟨q1, hq1, _⟩ := statsQueue.reached_insert l q ⟨now, size⟩ hr
  refine ⟨q1, hq1, ?_⟩
  rw [statsQueue.insertAll_snoc, hl]
  exact hq1

/-- The result of `RecvAppendReq` when the insert into the receive queue
returns `q1`. -/
theorem RecvAppendReq_eq (ss : raftServerStats) (now1 now2 : Int) (leaderName : String)
    (pkgSize : Int) (q q1 : statsQueue) (hq : ss.recvRateQueue = some q)
    (hins : q.Insert (NewPackageStats now2 pkgSize) = some q1) :
    ss.RecvAppendReq now1 now2 leaderName pkgSize = some
      { ss with
        State := raftFollower
        Leader := leaderName
        leaderStartTime := if leaderName ≠ ss.Leader then now1 else ss.leaderStartTime
        recvRateQueue := some q1
        RecvAppendRequestCnt := wrapUint64 (ss.RecvAppendRequestCnt + 1) } := by
  by_cases h : leaderName = ss.Leader
  · subst h
    simp [RecvAppendReq, hq, hins]
  · simp [RecvAppendReq, hq, hins, h]

/-- The result of `SendAppendReq` when the insert into the send queue returns
`q1`. -/
theorem SendAppendReq_eq (ss : raftServerStats) (name : String) (now1 now2 : Int)
    (pkgSize : Int) (q q1 : statsQueue) (hq : ss.sendRateQueue = some q)
    (hins : q.Insert (NewPackageStats now2 pkgSize) = some q1) :
    ss.SendAppendReq name now1 now2 pkgSize = some
      { ss with
        State := raftLeader
        Leader := if ss.State ≠ raftLeader then name else ss.Leader
        leaderStartTime := if ss.State ≠ raftLeader then now1 else ss.leaderStartTime
        sendRateQueue := some q1
        SendAppendRequestCnt := wrapUint64 (ss.SendAppendRequestCnt + 1) } := by
  by_cases h : ss.State = raftLeader
  · simp [SendAppendReq, hq, hins, h]
  · simp [SendAppendReq, hq, hins, h]

theorem run_snoc (name : String) (ss : raftServerStats) (cs : List Call) (c : Call) :
    run name ss (cs ++ [c]) = (run name ss cs).bind (fun s1 => step name s1 c) := by
  induction cs generalizing ss with
  | nil =>
    simp only [List.nil_append, run, Option.some_bind]
    cases step name ss c <;> rfl
  | cons d ds ih =>
    simp only [List.cons_append, run]
    cases h : step name ss d with
    | none => rfl
    | some s1 => simp [ih]

/-- Whenever a call returns, `State` has the value the call assigns. -/
theorem step_state (name : String) (ss ss1 : raftServerStats) (c : Call)
    (h : step name ss c = some ss1) : ss1.State = stateAfter c := by
  cases c with
  | recv now1 now2 leaderName pkgSize =>
    simp only [step, RecvAppendReq, Option.bind_eq_bind, Option.bind_eq_some,
      Option.pure_def, Option.some.injEq] at h
    obtain ⟨q, _, q1, _, rfl⟩ := h
    split <;> rfl
  | send now1 now2 pkgSize =>
    simp only [step, SendAppendReq, Option.bind_eq_bind, Option.bind_eq_some,
      Option.pure_def, Option.some.injEq] at h
    obtain ⟨q, _, q1, _, rfl⟩ := h
    by_cases hs : ss.State = raftLeader
    · simp [hs, stateAfter]
    · simp [hs, stateAfter]

/-- Whenever a call returns, it keeps the property that a node in state
`Leader` records its own name as leader. -/
theorem step_leader (name : String) (ss ss1 : raftServerStats) (c : Call)
    (hinv : ss.State = raftLeader → ss.Leader = name)
    (h : step name ss c = some ss1) : ss1.State = raftLeader → ss1.Leader = name := by
  cases c with
  | recv now1 now2 leaderName pkgSize =>
    intro hl
    have hst := step_state name ss ss1 _ h
    rw [hst] at hl
    have hne : raftFollower ≠ raftLeader := by decide
    exact absurd hl hne
  | send now1 now2 pkgSize =>
    intro _
    simp only [step, SendAppendReq, Option.bind_eq_bind, Option.bind_eq_some,
      Option.pure_def, Option.some.injEq] at h
    obtain ⟨q, _, q1, _, rfl⟩ := h
    by_cases hs : ss.State = raftLeader
    · simpa [hs] using hinv hs
    · simp [hs]

theorem run_leader (name : String) (cs : List Call) (ss ss1 : raftServerStats)
    (hinv : ss.State = raftLeader → ss.Leader = name)
    (h : run name ss cs = some ss1) : ss1.State = raftLeader → ss1.Leader = name := by
  induction cs generalizing ss with
  | nil =>
    simp only [run, Option.some.injEq] at h
    subst h
    exact hinv
  | cons c cs ih =>
    simp only [run, Option.bind_eq_some] at h
    obtain ⟨s1, hs1, hrun⟩ := h
    exact ih s1 (step_leader name ss s1 c hinv hs1) hrun

theorem run_last_state (name : String) (cs : List Call) (c : Call)
    (ss ss1 : raftServerStats) (h : run name ss (cs ++ [c]) = some ss1) :
    ss1.State = stateAfter c := by
  rw [run_snoc] at h
  simp only [Option.bind_eq_some] at h
  obtain ⟨s1, _, hs1⟩ := h
  exact step_state name s1 ss1 c hs1

/-- A call on a state with usable queues returns a state with usable queues. -/
theorem step_usable (name : String) (ss : raftServerStats) (c : Call) (hu : ss.Usable) :
    ∃ ss1, step name ss c = some ss1 ∧ ss1.Usable := by
  obtain ⟨⟨qs, ls, hqs, hls⟩, ⟨qr, lr, hqr, hlr⟩⟩ := hu
  cases c with
  | recv now1 now2 leaderName pkgSize =>
    obtain ⟨q1, hins, hl1⟩ := insert_built qr lr now2 pkgSize hlr
    refine ⟨_, RecvAppendReq_eq ss now1 now2 leaderName pkgSize qr q1 hqr hins, ?_, ?_⟩
    · exact ⟨qs, ls, hqs, hls⟩
    · exact ⟨q1, _, rfl, hl1⟩
  | send now1 now2 pkgSize =>
    obtain ⟨q1, hins, hl1⟩ := insert_built qs ls now2 pkgSize hls
    refine ⟨_, SendAppendReq_eq ss name now1 now2 pkgSize qs q1 hqs hins, ?_, ?_⟩
    · exact ⟨q1, _, rfl, hl1⟩
    · exact ⟨qr, lr, hqr, hlr⟩

theorem run_usable (name : String) (cs : List Call) (ss : raftServerStats)
    (hu : ss.Usable) : ∃ ss1, run name ss cs = some ss1 ∧ ss1.Usable := by
  induction cs generalizing ss with
  | nil => exact ⟨ss, rfl, hu⟩
  | cons c cs ih =>
    obtain ⟨s1, hs1, hu1⟩ := step_usable name ss c hu
    obtain ⟨s2, hs2, hu2⟩ := ih s1 hu1
    exact ⟨s2, by simp [run, hs1, hs2], hu2⟩

theorem fresh_usable : fresh.Usable :=
  ⟨⟨statsQueue.zero, [], rfl, rfl⟩, ⟨statsQueue.zero, [], rfl, rfl⟩⟩

/-! ## Theorems on `raftServerStats` -/

/-- C11: for every state whose receive queue is a queue built by inserts on a
zero-valued `statsQueue`, every leader name `L` and size `s`,
`RecvAppendReq(L, s)` returns and leaves `State = Follower` and `Leader = L`;
`leaderStartTime` is the current time if `L` differs from the previous
`Leader` and is unchanged otherwise; the receive queue has received exactly
one `Insert`, of a sample of size `s`; `RecvAppendRequestCnt` has grown by one
(as a `uint64`); `sendRateQueue` and `SendAppendRequestCnt` are unchanged. -/
theorem C11_recv_append_req (ss : raftServerStats) (now1 now2 : Int)
    (leaderName : String) (pkgSize : Int) (q : statsQueue) (l : List packageStats)
    (hq : ss.recvRateQueue = some q)
    (hl : statsQueue.insertAll statsQueue.zero l = some q) :
    ∃ q1 ss1, q.Insert (NewPackageStats now2 pkgSize) = some q1
      ∧ statsQueue.insertAll statsQueue.zero (l ++ [⟨now2, pkgSize⟩]) = some q1
      ∧ ss.RecvAppendReq now1 now2 leaderName pkgSize = some ss1
      ∧ ss1.State = raftFollower
      ∧ ss1.Leader = leaderName
      ∧ (leaderName ≠ ss.Leader → ss1.leaderStartTime = now1)
      ∧ (leaderName = ss.Leader → ss1.leaderStartTime = ss.leaderStartTime)
      ∧ ss1.recvRateQueue = some q1
      ∧ ss1.RecvAppendRequestCnt = (ss.RecvAppendRequestCnt + 1) % 2 ^ 64
      ∧ ss1.sendRateQueue = ss.sendRateQueue
      ∧ ss1.SendAppendRequestCnt = ss.SendAppendRequestCnt := by
  obtain ⟨q1, hins, hl1⟩ := insert_built q l now2 pkgSize hl
  refine ⟨q1, _, hins, hl1, RecvAppendReq_eq ss now1 now2 leaderName pkgSize q q1 hq hins,
    rfl, rfl, ?_, ?_, rfl, rfl, rfl, rfl⟩
  · intro h
    simp [h]
  · intro h
    simp [h]

/-- C11 on the example of the specification: from the zero value with
allocated queues, `RecvAppendReq("peerA", 100)` then `RecvAppendReq("peerB",
50)` change `Leader` to `"peerB"` and reset `leaderStartTime` (to 20, the time
of the second call); a further `RecvAppendReq("peerB", 30)` keeps it. -/
theorem C11_recv_append_req_witness :
    fresh.recvRateQueue = some statsQueue.zero
      ∧ statsQueue.insertAll statsQueue.zero [] = some statsQueue.zero
      ∧ ∃ s1 s2 s3, fresh.RecvAppendReq 10 11 "peerA" 100 = some s1
        ∧ s1.RecvAppendReq 20 21 "peerB" 50 = some s2
        ∧ s2.RecvAppendReq 30 31 "peerB" 30 = some s3
        ∧ s1.Leader = "peerA" ∧ s1.leaderStartTime = 10
        ∧ s2.Leader = "peerB" ∧ s2.leaderStartTime = 20
        ∧ s3.Leader = "peerB" ∧ s3.leaderStartTime = 20
        ∧ s3.State = raftFollower ∧ s3.RecvAppendRequestCnt = 3 := by
  obtain ⟨q1, s1, _, hl1, hs1, _, hL1, ht1, _, hq1, hc1, _, _⟩ :=
    C11_recv_append_req fresh 10 11 "peerA" 100 statsQueue.zero [] rfl rfl
  obtain ⟨q2, s2, _, hl2, hs2, _, hL2, ht2, _, hq2, hc2, _, _⟩ :=
    C11_recv_append_req s1 20 21 "peerB" 50 q1 _ hq1 hl1
  obtain ⟨q3, s3, _, _, hs3, hS3, hL3, _, ht3, _, hc3, _, _⟩ :=
    C11_recv_append_req s2 30 31 "peerB" 30 q2 _ hq2 hl2
  have e1 : s1.leaderStartTime = 10 := ht1 (by decide)
  have e2 : s2.leaderStartTime = 20 := ht2 (by rw [hL1]; decide)
  have e3 : s3.leaderStartTime = 20 := by rw [ht3 hL2.symm, e2]
  have c1 : s1.RecvAppendRequestCnt = 1 := by rw [hc1]; rfl
  have c2 : s2.RecvAppendRequestCnt = 2 := by rw [hc2, c1]; rfl
  have c3 : s3.RecvAppendRequestCnt = 3 := by rw [hc3, c2]; rfl
  exact ⟨rfl, rfl, s1, s2, s3, hs1, hs2, hs3, hL1, e1, hL2, e2, hL3, e3, hS3, c3⟩

/-- C12: for every state whose send queue is a queue built by inserts on a
zero-valued `statsQueue` and every size `s`, `SendAppendReq(s)` returns and
leaves `State = Leader`; if `State` was not `Leader` it sets `Leader` to the
node's own name and `leaderStartTime` to the current time, otherwise it leaves
both unchanged; the send queue has received exactly one `Insert`, of a sample
of size `s`; `SendAppendRequestCnt` has grown by one (as a `uint64`);
`recvRateQueue` and `RecvAppendRequestCnt` are unchanged. -/
theorem C12_send_append_req (ss : raftServerStats) (name : String) (now1 now2 : Int)
    (pkgSize : Int) (q : statsQueue) (l : List packageStats)
    (hq : ss.sendRateQueue = some q)
    (hl : statsQueue.insertAll statsQueue.zero l = some q) :
    ∃ q1 ss1, q.Insert (NewPackageStats now2 pkgSize) = some q1
      ∧ statsQueue.insertAll statsQueue.zero (l ++ [⟨now2, pkgSize⟩]) = some q1
      ∧ ss.SendAppendReq name now1 now2 pkgSize = some ss1
      ∧ ss1.State = raftLeader
      ∧ (ss.State ≠ raftLeader → ss1.Leader = name ∧ ss1.leaderStartTime = now1)
      ∧ (ss.State = raftLeader →
          ss1.Leader = ss.Leader ∧ ss1.leaderStartTime = ss.leaderStartTime)
      ∧ ss1.sendRateQueue = some q1
      ∧ ss1.SendAppendRequestCnt = (ss.SendAppendRequestCnt + 1) % 2 ^ 64
      ∧ ss1.recvRateQueue = ss.recvRateQueue
      ∧ ss1.RecvAppendRequestCnt = ss.RecvAppendRequestCnt := by
  obtain ⟨q1, hins, hl1⟩ := insert_built q l now2 pkgSize hl
  refine ⟨q1, _, hins, hl1, SendAppendReq_eq ss name now1 now2 pkgSize q q1 hq hins,
    rfl, ?_, ?_, rfl, rfl, rfl, rfl⟩
  · intro h
    simp [h]
  · intro h
    simp [h]

/-- C12 on two calls from the zero value with allocated queues, on the node
`"node1"`: the first `SendAppendReq` makes the node leader at time 10, the
second keeps `Leader` and `leaderStartTime`. -/
theorem C12_send_append_req_witness :
    fresh.sendRateQueue = some statsQueue.zero
      ∧ statsQueue.insertAll statsQueue.zero [] = some statsQueue.zero
      ∧ ∃ s1 s2, fresh.SendAppendReq "node1" 10 11 100 = some s1
        ∧ s1.SendAppendReq "node1" 20 21 50 = some s2
        ∧ s1.State = raftLeader ∧ s1.Leader = "node1" ∧ s1.leaderStartTime = 10
        ∧ s2.State = raftLeader ∧ s2.Leader = "node1" ∧ s2.leaderStartTime = 10
        ∧ s2.SendAppendRequestCnt = 2 ∧ s2.RecvAppendRequestCnt = 0 := by
  obtain ⟨q1, s1, _, hl1, hs1, hS1, hn1, _, hq1, hc1, _, hr1⟩ :=
    C12_send_append_req fresh "node1" 10 11 100 statsQueue.zero [] rfl rfl
  obtain ⟨q2, s2, _, _, hs2, hS2, _, hk2, _, hc2, _, hr2⟩ :=
    C12_send_append_req s1 "node1" 20 21 50 q1 _ hq1 hl1
  obtain ⟨eL1, et1⟩ := hn1 (by decide)
  obtain ⟨eL2, et2⟩ := hk2 hS1
  have c1 : s1.SendAppendRequestCnt = 1 := by rw [hc1]; rfl
  have c2 : s2.SendAppendRequestCnt = 2 := by rw [hc2, c1]; rfl
  exact ⟨rfl, rfl, s1, s2, hs1, hs2, hS1, eL1, et1, hS2, by rw [eL2, eL1],
    by rw [et2, et1], c2, by rw [hr2, hr1]; rfl⟩

/-- C20: on a node of own name `name`, every sequence of `RecvAppendReq` and
`SendAppendReq` calls from the zero value with allocated queues runs without
panic, and in the state it reaches `State = Leader` implies `Leader = name`;
`State` is `Follower` right after a `RecvAppendReq` and `Leader` right after a
`SendAppendReq`. From the zero value itself, whose queue pointers are nil, the
same holds of every state a sequence of calls reaches. -/
theorem C20_leader_names_self (name : String) (calls : List Call) :
    (∃ ss, run name fresh calls = some ss
        ∧ (ss.State = raftLeader → ss.Leader = name)
        ∧ ∀ (pre : List Call) (c : Call), calls = pre ++ [c] → ss.State = stateAfter c)
      ∧ ∀ ss, run name zero calls = some ss →
        (ss.State = raftLeader → ss.Leader = name)
          ∧ ∀ (pre : List Call) (c : Call), calls = pre ++ [c] →
            ss.State = stateAfter c := by
  have hz : zero.State = raftLeader → zero.Leader = name := fun h => absurd h (by decide)
  have hf : fresh.State = raftLeader → fresh.Leader = name := fun h => absurd h (by decide)
  constructor
  · obtain ⟨ss, hss, _⟩ := run_usable name calls fresh fresh_usable
    refine ⟨ss, hss, run_leader name calls fresh ss hf hss, ?_⟩
    intro pre c hc
    subst hc
    exact run_last_state name pre c fresh ss hss
  · intro ss hss
    refine ⟨run_leader name calls zero ss hz hss, ?_⟩
    intro pre c hc
    subst hc
    exact run_last_state name pre c zero ss hss

end raftServerStats

/-! ## Negative inputs -/

/-- The effect of `Insert` of a non-nil sample on a queue that is not full
and whose `back` is a valid index, whatever its other fields. -/
theorem statsQueue.Insert_not_full_any (q : statsQueue) (p : packageStats)
    (hsize : q.size ≠ queueCapacity) (hb0 : 0 ≤ q.back) (hb1 : q.back < queueCapacity) :
    q.Insert (some p) = some
      { items := fun i => if i = ((q.back + 1) % 200).toNat then some p else q.items i
        size := wrapInt (q.size + 1)
        front := q.front
        back := (q.back + 1) % 200
        totalPkgSize := wrapInt (q.totalPkgSize + p.size) } := by
  unfold queueCapacity at hb1
  have e1 : wrapInt (q.back + 1) = q.back + 1 := wrapInt_of_range _ (by omega) (by omega)
  have e2 : (q.back + 1).tmod queueCapacity = (q.back + 1) % 200 :=
    tmod_capacity _ (by omega)
  have e4 : 0 ≤ (q.back + 1) % 200 ∧ (q.back + 1) % 200 < queueCapacity := by
    unfold queueCapacity
    omega
  simp only [statsQueue.Insert, e1, e2, e4, hsize, if_false, if_true, and_self,
    Option.bind_eq_bind, Option.some_bind, Option.pure_def]

/-- C13, as stated, fails: the zero-valued queue is not full, and after the
insert of a sample of size `-5` its `Size()` is below the `Size()` before;
after `Succ(-1ms)` on the zero-valued `raftPeerStats`, `Latency` is below the
`Latency` after `Succ(0)`. -/
theorem C13_negative_inputs_counterexample :
    (∃ q1, statsQueue.zero.size ≠ queueCapacity
        ∧ statsQueue.zero.Insert (some ⟨0, -5⟩) = some q1
        ∧ q1.Size < statsQueue.zero.Size)
      ∧ float64.lt (raftPeerStats.Succ Real.sqrt raftPeerStats.zero (-1000000)).Latency
          (raftPeerStats.Succ Real.sqrt raftPeerStats.zero 0).Latency = true := by
  constructor
  · exact ⟨_, by decide, rfl, by decide⟩
  · rw [raftPeerStats.Succ_latency, raftPeerStats.Succ_latency]
    simp only [float64.lt, millis, decide_eq_true_eq]
    norm_num

/-- C13, amended: negative inputs are neither rejected nor clamped. On a
queue that is not full and whose `back` is a valid index, `Insert` of a
non-nil sample returns and `Size()` grows by the size of the sample in 64-bit
two's complement arithmetic, so a negative size that does not overflow lowers
it. On a `raftPeerStats` with finite `MinLatency = m` and `AvgLatency = a` and
a counter that does not wrap around, after `Succ(d)` for any duration `d`,
`Latency` is `d / 10^6`, `MinLatency` is the smaller of `d / 10^6` and `m`,
and `AvgLatency` is `(a * SuccCnt + d / 10^6) / (SuccCnt + 1)`; `Latency` is
negative when `d` is. -/
theorem C13_negative_inputs_taken_as_given {F : Type} [LinearOrderedField F]
    (sqrt : F → F) (q : statsQueue) (p : packageStats) (ps : raftPeerStats F) (d : Int)
    (m a : F)
    (hfull : q.size ≠ queueCapacity) (hb0 : 0 ≤ q.back) (hb1 : q.back < queueCapacity)
    (hm : ps.MinLatency = float64.fin m) (ha : ps.AvgLatency = float64.fin a)
    (hk : ps.SuccCnt + 1 < 2 ^ 64) :
    (∃ q1, q.Insert (some p) = some q1
        ∧ q1.Size = wrapInt (q.Size + p.size)
        ∧ (p.size < 0 → -(2 ^ 63) ≤ q.Size + p.size → q.Size < 2 ^ 63 → q1.Size < q.Size))
      ∧ (ps.Succ sqrt d).Latency = float64.fin (millis d)
      ∧ (ps.Succ sqrt d).MinLatency = float64.fin (min (millis d) m)
      ∧ (ps.Succ sqrt d).AvgLatency
          = float64.fin ((a * ps.SuccCnt + millis d) / (ps.SuccCnt + 1))
      ∧ (d < 0 → (millis d : F) < 0) := by
  refine ⟨⟨_, statsQueue.Insert_not_full_any q p hfull hb0 hb1, rfl, ?_⟩,
    raftPeerStats.Succ_latency sqrt ps d, ?_, ?_, ?_⟩
  · intro hneg hlo hhi
    have e : wrapInt (q.Size + p.size) = q.Size + p.size :=
      wrapInt_of_range _ hlo (by omega)
    show wrapInt (q.Size + p.size) < q.Size
    rw [e]
    omega
  · rw [raftPeerStats.Succ_min sqrt ps d m hm]
    congr 1
    by_cases h : (millis d : F) < m
    · rw [if_pos h, min_eq_left h.le]
    · rw [if_neg h, min_eq_right (not_lt.mp h)]
  · have hw : wrapUint64 (ps.SuccCnt + 1) = ps.SuccCnt + 1 := Nat.mod_eq_of_lt hk
    have hne : ((ps.SuccCnt : F) + 1) ≠ 0 := by positivity
    simp only [raftPeerStats.Succ, hw, ha, raftPeerStats.latency_eq]
    simp [float64.div, float64.add, float64.mul, float64.ofNat, hne, mul_comm]
  · intro hd
    unfold millis
    exact div_neg_of_neg_of_pos (Int.cast_lt_zero.mpr hd) (by norm_num)

/-- C13 amended, at the insert of a sample of size `-5` into the zero-valued
queue and at `Succ(-1ms)` on the zero-valued `raftPeerStats` over the reals:
`Size()` becomes `-5` and `Latency`, `MinLatency` and `AvgLatency` become
`-1`. -/
theorem C13_negative_inputs_taken_as_given_witness :
    statsQueue.zero.size ≠ queueCapacity
      ∧ (∃ q1, statsQueue.zero.Insert (some ⟨0, -5⟩) = some q1 ∧ q1.Size = -5)
      ∧ (raftPeerStats.Succ Real.sqrt raftPeerStats.zero (-1000000)).Latency
          = float64.fin (-1)
      ∧ (raftPeerStats.Succ Real.sqrt raftPeerStats.zero (-1000000)).MinLatency
          = float64.fin (-1)
      ∧ (raftPeerStats.Succ Real.sqrt raftPeerStats.zero (-1000000)).AvgLatency
          = float64.fin (-1) := by
  obtain ⟨⟨q1, hq1, hs, _⟩, hl, hmin, havg, _⟩ :=
    C13_negative_inputs_taken_as_given Real.sqrt statsQueue.zero ⟨0, -5⟩
      (raftPeerStats.zero : raftPeerStats ℝ) (-1000000) 0 0
      (by decide) (by decide) (by decide) rfl rfl (by decide)
  have e : (millis (-1000000) : ℝ) = -1 := by norm_num [millis]
  refine ⟨by decide, ⟨q1, hq1, ?_⟩, ?_, ?_, ?_⟩
  · rw [hs]
    decide
  · rw [hl, e]
  · rw [hmin, e]
    norm_num
  · rw [havg, e]
    norm_num [raftPeerStats.zero]

end RaftStats
